import Mathlib

/-
Verification of the chunked CSV-to-Postgres ingestion script (ingest_data.py).

The script reads a gzipped CSV in chunks of 10000 rows with pandas, parses the
two taxi timestamp columns of each chunk, bootstraps the destination table from
the first chunk (drop and recreate via head(0).to_sql with if_exists replace),
appends every chunk (including the first), and prints a timing message after
each chunk loaded inside the while loop.

We embed the tabular data model shallowly: a record is an ordered association
list from column name to value, a batch is a list of records, and the reader
is the chunking of the record list of the file.  Calls to the database are
recorded as an action trace, and the destination table state is obtained by
folding the trace over a prior table state.
-/

/-- A scalar cell value: either a raw (textual) value as read from the CSV, or
a canonical timestamp.  Timestamps are represented by an integer epoch value;
the pandas to_datetime parser is modelled by integer parsing of the raw text
(an abstract stand-in for the external datetime library). -/
inductive Value where
  | raw (s : String)
  | timestamp (t : Int)
deriving DecidableEq, Repr

/-- Whether a value is a canonical timestamp. -/
def Value.isTimestamp : Value → Bool
  | .raw _ => false
  | .timestamp _ => true

/-- The numeric value of a decimal digit character, none on any other
character. -/
def digitVal (c : Char) : Option Nat :=
  if c.isDigit then some (c.toNat - 48) else none

/-- Decimal parsing of a character list, failing on any non-digit. -/
def digitsToNatAux (acc : Nat) : List Char → Option Nat
  | [] => some acc
  | c :: cs =>
    match digitVal c with
    | none => none
    | some d => digitsToNatAux (acc * 10 + d) cs

/-- Parse the text of a raw cell as a timestamp, modelled as decimal parsing
of the text: an executable stand-in for the external datetime library, with
both a success and a failure case.  Empty or non-numeric text is
unparsable. -/
def parseStamp (s : String) : Option Int :=
  match s.data with
  | [] => none
  | c :: cs => (digitsToNatAux 0 (c :: cs)).map Int.ofNat

/-- Model of pd.to_datetime on one cell: an already canonical timestamp
passes through, a raw cell is parsed with parseStamp; an unparsable cell is
a failure, which in the script escapes as an exception. -/
def toDatetime : Value → Option Value
  | .raw s => (parseStamp s).map Value.timestamp
  | .timestamp t => some (.timestamp t)

/-- One record: an ordered sequence of (column name, value) pairs. -/
abbrev Record := List (String × Value)

/-- A batch of records (one pandas chunk). -/
abbrev Batch := List Record

/-- The pickup column normalized by line 33 of the script; the name is fixed
in the source, not configurable. -/
def pickupColumn : String := "tpep_pickup_datetime"

/-- The dropoff column normalized by line 34 of the script; the name is fixed
in the source, not configurable. -/
def dropoffColumn : String := "tpep_dropoff_datetime"

/-- The chunk size hardcoded at line 29 of the script (chunksize = 10000). -/
def batch_size : Nat := 10000

/-- The names of the command line arguments the script recognizes
(argparse block, lines 62 to 68). -/
def cliArgs : List String :=
  ["user", "password", "host", "port", "db", "table_name", "url"]

/-- Map a fallible function over a list, failing if any element fails.  This is
how the per-cell timestamp parse propagates over a record and a batch: the
first unparsable cell aborts the whole operation. -/
def mapOption (f : α → Option β) : List α → Option (List β)
  | [] => some []
  | a :: as =>
    match f a, mapOption f as with
    | some b, some bs => some (b :: bs)
    | _, _ => none

/-- Normalize one field of a record: the two designated timestamp columns are
parsed with toDatetime, every other field passes through unchanged
(lines 33-34 and 48-49 of the script assign only those two columns). -/
def normalizeField (p : String × Value) : Option (String × Value) :=
  if p.1 = pickupColumn ∨ p.1 = dropoffColumn then
    (toDatetime p.2).map (fun v => (p.1, v))
  else
    some p

/-- Normalize one record field by field. -/
def normalizeRecord (r : Record) : Option Record :=
  mapOption normalizeField r

/-- Normalize one batch record by record: the per-batch timestamp
normalization of the script. -/
def normalizeBatch (b : Batch) : Option Batch :=
  mapOption normalizeRecord b

/-- The column schema of a batch: the ordered column names of its first
record (pandas derives the frame schema from the parsed chunk). -/
def batchCols (b : Batch) : List String :=
  match b with
  | [] => []
  | r :: _ => r.map Prod.fst

/-- Split a list of records into consecutive chunks of size B, the last chunk
possibly shorter: the semantics of pd.read_csv with iterator and chunksize. -/
def chunks (B : Nat) (l : List α) : List (List α) :=
  if h : l.isEmpty = true ∨ B = 0 then []
  else l.take B :: chunks B (l.drop B)
termination_by l.length
decreasing_by
  simp only [List.length_drop]
  push_neg at h
  exact Nat.sub_lt (List.length_pos.mpr (by simpa [List.isEmpty_iff] using h.1))
    (Nat.pos_of_ne_zero h.2)

/-- A database call issued by the script via to_sql, or a printed timing
message.  replaceOp records line 36 (df.head(0).to_sql with if_exists set to
replace: drop the table if present and recreate it empty with the given
columns); appendOp records lines 38 and 51 (append the rows of a normalized
batch); printEvent records line 55 (the printed message, which carries only
the elapsed seconds of the append, no batch index and no row count; wall
clock time is abstracted away). -/
inductive DbAction where
  | replaceOp (name : String) (cols : List String)
  | appendOp (name : String) (rows : Batch)
  | printEvent
deriving DecidableEq, Repr

/-- Whether an action is the schema bootstrap (drop and recreate). -/
def DbAction.isReplace : DbAction → Bool
  | .replaceOp _ _ => true
  | _ => false

/-- Whether an action is a batch append. -/
def DbAction.isAppend : DbAction → Bool
  | .appendOp _ _ => true
  | _ => false

/-- Whether an action is the printed timing message. -/
def DbAction.isPrint : DbAction → Bool
  | .printEvent => true
  | _ => false

/-- How the call to main ends.  The script has no success return after the
while loop: done (a normal return of main) is never produced.
emptySource is the StopIteration escaping from line 31 when the stream has no
first chunk; normFail k is the parse exception escaping from to_datetime
while batch k is processed; stopIteration is the StopIteration escaping from
line 46 when the stream is exhausted, which is how every successful run
ends. -/
inductive RunExit where
  | done
  | emptySource
  | normFail (k : Nat)
  | stopIteration
deriving DecidableEq, Repr

/-- The while loop of lines 43 to 55: pull the next batch (StopIteration
escapes when the stream is exhausted), normalize its two timestamp columns
(a parse failure escapes), append it, print the timing message.  k is the
index of the next batch; the returned trace lists the database calls and
prints in order. -/
def ingestLoop (tname : String) (k : Nat) : List Batch → List DbAction × RunExit
  | [] => ([], .stopIteration)
  | b :: rest =>
    match normalizeBatch b with
    | none => ([], .normFail k)
    | some nb =>
      let r := ingestLoop tname (k + 1) rest
      (DbAction.appendOp tname nb :: DbAction.printEvent :: r.1, r.2)

/-- Lines 29 to 55 of the script, given the list of batches the reader
yields: pull the first batch (StopIteration when there is none), normalize
it, bootstrap the table from it (line 36), append it (line 38), then run the
while loop over the remaining batches. -/
def runMain (tname : String) (batches : List Batch) : List DbAction × RunExit :=
  match batches with
  | [] => ([], .emptySource)
  | b0 :: rest =>
    match normalizeBatch b0 with
    | none => ([], .normFail 0)
    | some nb0 =>
      let r := ingestLoop tname 1 rest
      (DbAction.replaceOp tname (batchCols nb0) :: DbAction.appendOp tname nb0 :: r.1,
        r.2)

/-- The destination table: its column schema and its rows. -/
structure Table where
  cols : List String
  rows : List Record
deriving DecidableEq, Repr

/-- Apply one database action to the state of the table named tname (none
means the table does not exist).  A replace drops any prior table and
creates it empty with the given columns; an append extends the rows (pandas
to_sql with if_exists append creates the table when missing); a print
touches nothing. -/
def applyAction (tname : String) (st : Option Table) : DbAction → Option Table
  | .replaceOp n c => if n = tname then some ⟨c, []⟩ else st
  | .appendOp n rs =>
    if n = tname then
      match st with
      | some t => some ⟨t.cols, t.rows ++ rs⟩
      | none => some ⟨batchCols rs, rs⟩
    else st
  | .printEvent => st

/-- Fold a trace of actions over a prior table state. -/
def applyOps (tname : String) (st : Option Table) : List DbAction → Option Table
  | [] => st
  | a :: tr => applyOps tname (applyAction tname st a) tr

/-- The rows appended to table tname by a trace, in order. -/
def appendedRows (tname : String) : List DbAction → List Record
  | [] => []
  | .appendOp n rs :: tr =>
    if n = tname then rs ++ appendedRows tname tr else appendedRows tname tr
  | _ :: tr => appendedRows tname tr

/-- The local file the script reads: either a gzip member holding the CSV
rows, or a plain uncompressed CSV holding them. -/
inductive FileContent where
  | gzipped (rows : List Record)
  | plain (rows : List Record)
deriving DecidableEq, Repr

/-- The suffix tested at line 18 of the script. -/
def gzSuffix : String := ".csv.gz"

/-- Lines 18 to 21: the local file name is chosen by the url suffix. -/
def csvName (url : String) : String :=
  if url.endsWith gzSuffix then ("output.csv.gz") else ("output.csv")

/-- Line 29: pd.read_csv with compression set to gzip unconditionally; a
plain uncompressed file fails to decompress, so the read fails; a gzipped
file is decoded and chunked. -/
def readCsv (B : Nat) : FileContent → Option (List Batch)
  | .gzipped rows => some (chunks B rows)
  | .plain _ => none

/-- How the whole script run ends: a read failure (the gzip decoder
rejecting the file), or one of the outcomes of the ingestion part. -/
inductive ScriptExit where
  | readError
  | run (e : RunExit)
deriving DecidableEq, Repr

/-- The script end to end on a local file: read (always through gzip, with
the hardcoded chunk size), then ingest. -/
def runScript (tname : String) (file : FileContent) : List DbAction × ScriptExit :=
  match readCsv batch_size file with
  | none => ([], .readError)
  | some batches =>
    let r := runMain tname batches
    (r.1, .run r.2)

/-- The trace produced by the while loop on a list of normalized batches:
one append and one print per batch, in order. -/
def loopTrace (tname : String) (nrs : List Batch) : List DbAction :=
  (nrs.map (fun nb => [DbAction.appendOp tname nb, DbAction.printEvent])).flatten

/-- The final state of the destination table after one call to main, starting
from a prior table state: the trace of the run folded over the prior state. -/
def runTable (tname : String) (batches : List Batch) (prior : Option Table) :
    Option Table :=
  applyOps tname prior (runMain tname batches).1

/-- A sample taxi record with parseable timestamp fields, used for concrete
instances. -/
def wRec : Record :=
  [(pickupColumn, Value.raw ("3")), ("passenger_count", Value.raw ("2")),
    (dropoffColumn, Value.raw ("7"))]

/-- The normalization of wRec. -/
def wRecN : Record :=
  [(pickupColumn, Value.timestamp 3), ("passenger_count", Value.raw ("2")),
    (dropoffColumn, Value.timestamp 7)]

/-- A record whose pickup field is not parseable as a timestamp. -/
def wRecBad : Record :=
  [(pickupColumn, Value.raw ("oops")), ("passenger_count", Value.raw ("2")),
    (dropoffColumn, Value.raw ("7"))]

/-- A source of 25000 identical parseable records, the scenario of the spec. -/
def bigSource : List Record :=
  List.replicate 25000 wRec

/-- A destination table name used in concrete instances. -/
def wTable : String :=
  "yellow_taxi_data"

/-- A small concrete source of five records, used for concrete instances. -/
def wSource : List Record :=
  [wRec, wRec, wRec, wRec, wRec]

theorem chunks_nil (B : Nat) : chunks B ([] : List α) = [] := by
  rw [chunks]
  simp

theorem chunks_cons {B : Nat} {l : List α} (hB : B ≠ 0) (hl : l ≠ []) :
    chunks B l = l.take B :: chunks B (l.drop B) := by
  rw [chunks]
  simp [List.isEmpty_iff, hl, hB]

theorem chunks_flatten {B : Nat} (hB : B ≠ 0) (l : List α) :
    (chunks B l).flatten = l := by
  by_cases hl : l = []
  · subst hl
    simp [chunks_nil]
  · rw [chunks_cons hB hl]
    simp only [List.flatten_cons]
    rw [chunks_flatten hB (l.drop B)]
    exact List.take_append_drop B l
termination_by l.length
decreasing_by
  simp only [List.length_drop]
  exact Nat.sub_lt (List.length_pos.mpr hl) (Nat.pos_of_ne_zero hB)

theorem chunks_eq_nil_iff {B : Nat} (hB : B ≠ 0) {l : List α} :
    chunks B l = [] ↔ l = [] := by
  constructor
  · intro h
    by_contra hl
    rw [chunks_cons hB hl] at h
    exact List.cons_ne_nil _ _ h
  · intro h
    subst h
    exact chunks_nil B

theorem chunks_length {B : Nat} (hB : B ≠ 0) (l : List α) :
    (chunks B l).length = (l.length + B - 1) / B := by
  by_cases hl : l = []
  · subst hl
    simp only [chunks_nil, List.length_nil]
    rw [Nat.div_eq_of_lt (by omega)]
  · rw [chunks_cons hB hl]
    simp only [List.length_cons]
    rw [chunks_length hB (l.drop B)]
    simp only [List.length_drop]
    have hn : 0 < l.length := List.length_pos.mpr hl
    have e1 : l.length + B - 1 = (l.length - 1) + B := by omega
    rw [e1, Nat.add_div_right _ (Nat.pos_of_ne_zero hB)]
    congr 1
    rcases le_or_lt l.length B with hc | hc
    · have e2 : l.length - B = 0 := by omega
      rw [e2]
      simp only [Nat.zero_add]
      rw [Nat.div_eq_of_lt (by omega), Nat.div_eq_of_lt (by omega)]
    · have e3 : l.length - B + B - 1 = l.length - 1 := by omega
      rw [e3]
termination_by l.length
decreasing_by
  simp only [List.length_drop]
  exact Nat.sub_lt (List.length_pos.mpr hl) (Nat.pos_of_ne_zero hB)

theorem chunks_sizes {B : Nat} (hB : B ≠ 0) (l : List α) :
    ∀ c ∈ (chunks B l).dropLast, c.length = B := by
  by_cases hl : l = []
  · subst hl
    simp [chunks_nil]
  · rw [chunks_cons hB hl]
    by_cases hd : l.drop B = []
    · rw [hd, chunks_nil]
      simp
    · have hne : chunks B (l.drop B) ≠ [] := by
        rw [Ne, chunks_eq_nil_iff hB]
        exact hd
      rw [List.dropLast_cons_of_ne_nil hne]
      intro c hc
      rcases List.mem_cons.mp hc with hc1 | hc2
      · subst hc1
        have hlt : B < l.length := by
          by_contra hbl
          push_neg at hbl
          exact hd (List.drop_eq_nil_iff.mpr hbl)
        simp only [List.length_take]
        omega
      · exact chunks_sizes hB (l.drop B) c hc2
termination_by l.length
decreasing_by
  simp only [List.length_drop]
  exact Nat.sub_lt (List.length_pos.mpr hl) (Nat.pos_of_ne_zero hB)

theorem chunks_getLast {B : Nat} (hB : B ≠ 0) {l : List α} (hl : l ≠ []) :
    1 ≤ ((chunks B l).getLast?.getD []).length ∧
      ((chunks B l).getLast?.getD []).length ≤ B := by
  rw [chunks_cons hB hl]
  by_cases hd : l.drop B = []
  · rw [hd, chunks_nil]
    rw [List.getLast?_singleton]
    simp only [Option.getD_some, List.length_take]
    have hn : 0 < l.length := List.length_pos.mpr hl
    omega
  · have hne : chunks B (l.drop B) ≠ [] := by
      rw [Ne, chunks_eq_nil_iff hB]
      exact hd
    obtain ⟨c, cs, hcs⟩ := List.exists_cons_of_ne_nil hne
    rw [hcs, List.getLast?_cons_cons, ← hcs]
    exact chunks_getLast hB hd
termination_by l.length
decreasing_by
  simp only [List.length_drop]
  exact Nat.sub_lt (List.length_pos.mpr hl) (Nat.pos_of_ne_zero hB)

theorem mapOption_eq_some {f : α → Option β} {l : List α} {l' : List β} :
    mapOption f l = some l' ↔ List.Forall₂ (fun a b => f a = some b) l l' := by
  induction l generalizing l' with
  | nil =>
    simp only [mapOption, Option.some.injEq]
    constructor
    · rintro rfl
      exact List.Forall₂.nil
    · intro h
      cases h
      rfl
  | cons a as ih =>
    simp only [mapOption]
    cases hfa : f a with
    | none =>
      constructor
      · intro h
        cases h
      · intro h
        cases h with
        | cons hab htail =>
          rw [hfa] at hab
          cases hab
    | some b =>
      cases hm : mapOption f as with
      | none =>
        constructor
        · intro h
          cases h
        · intro h
          cases h with
          | cons hab htail =>
            rw [ih.mpr htail] at hm
            cases hm
      | some bs =>
        simp only [Option.some.injEq]
        constructor
        · rintro rfl
          exact List.Forall₂.cons hfa (ih.mp hm)
        · intro h
          cases h with
          | cons hab htail =>
            rw [hfa] at hab
            cases hab
            rw [ih.mpr htail] at hm
            cases hm
            rfl

theorem ingestLoop_success {tname : String} {rest nrs : List Batch}
    (h : mapOption normalizeBatch rest = some nrs) (k : Nat) :
    ingestLoop tname k rest = (loopTrace tname nrs, RunExit.stopIteration) := by
  induction rest generalizing nrs k with
  | nil =>
    simp only [mapOption, Option.some.injEq] at h
    subst h
    simp [ingestLoop, loopTrace]
  | cons b bs ih =>
    simp only [mapOption] at h
    cases hfb : normalizeBatch b with
    | none =>
      rw [hfb] at h
      cases h
    | some nb =>
      rw [hfb] at h
      cases hm : mapOption normalizeBatch bs with
      | none =>
        rw [hm] at h
        cases h
      | some nbs =>
        rw [hm] at h
        injection h with h2
        subst h2
        simp only [ingestLoop, hfb]
        rw [ih hm (k + 1)]
        simp [loopTrace]

theorem ingestLoop_failure (tname : String) (pre : List Batch) {bk : Batch}
    (suf : List Batch) {npre : List Batch} (k : Nat)
    (hpre : mapOption normalizeBatch pre = some npre)
    (hb : normalizeBatch bk = none) :
    ingestLoop tname k (pre ++ bk :: suf) =
      (loopTrace tname npre, RunExit.normFail (k + pre.length)) := by
  induction pre generalizing npre k with
  | nil =>
    simp only [mapOption, Option.some.injEq] at hpre
    subst hpre
    simp [ingestLoop, hb, loopTrace]
  | cons p ps ih =>
    simp only [mapOption] at hpre
    cases hfp : normalizeBatch p with
    | none =>
      rw [hfp] at hpre
      cases hpre
    | some np =>
      rw [hfp] at hpre
      cases hm : mapOption normalizeBatch ps with
      | none =>
        rw [hm] at hpre
        cases hpre
      | some nps =>
        rw [hm] at hpre
        injection hpre with h2
        subst h2
        simp only [List.cons_append, ingestLoop, hfp, List.append_eq]
        rw [ih (k + 1) hm]
        simp only [loopTrace, List.map_cons, List.flatten_cons, List.length_cons,
          Prod.mk.injEq]
        refine ⟨rfl, ?_⟩
        congr 1
        omega

theorem ingestLoop_no_replace (tname : String) (k : Nat) (rest : List Batch) :
    ((ingestLoop tname k rest).1).countP DbAction.isReplace = 0 := by
  induction rest generalizing k with
  | nil =>
    simp [ingestLoop]
  | cons b bs ih =>
    simp only [ingestLoop]
    cases hfb : normalizeBatch b with
    | none =>
      simp
    | some nb =>
      simp only [List.countP_cons, DbAction.isReplace, ih (k + 1)]
      simp

theorem loopTrace_countP_print (tname : String) (nrs : List Batch) :
    (loopTrace tname nrs).countP DbAction.isPrint = nrs.length := by
  induction nrs with
  | nil =>
    simp [loopTrace]
  | cons nb nbs ih =>
    simp only [loopTrace, List.map_cons, List.flatten_cons] at ih ⊢
    simp [List.countP_cons, DbAction.isPrint, ih]

theorem applyOps_loopTrace (tname : String) (c : List String) (rs : List Record)
    (nrs : List Batch) :
    applyOps tname (some ⟨c, rs⟩) (loopTrace tname nrs) =
      some ⟨c, rs ++ nrs.flatten⟩ := by
  induction nrs generalizing rs with
  | nil =>
    simp [loopTrace, applyOps]
  | cons nb nbs ih =>
    have step : applyAction tname (some ⟨c, rs⟩) (DbAction.appendOp tname nb) =
        some ⟨c, rs ++ nb⟩ := by
      simp [applyAction]
    simp only [loopTrace, List.map_cons, List.flatten_cons, List.cons_append]
    simp only [applyOps, applyAction, List.nil_append, eq_self_iff_true, ite_true,
      if_true]
    rw [loopTrace] at ih
    rw [ih (rs ++ nb)]
    simp [List.append_assoc]

theorem toDatetime_isTimestamp {v w : Value} (h : toDatetime v = some w) :
    w.isTimestamp = true := by
  cases v with
  | raw s =>
    cases hs : parseStamp s with
    | none =>
      rw [toDatetime, hs] at h
      cases h
    | some t =>
      rw [toDatetime, hs] at h
      cases h
      rfl
  | timestamp t =>
    cases h
    rfl

theorem normalizeField_spec {p q : String × Value} (h : normalizeField p = some q) :
    q.1 = p.1 ∧
      ((p.1 ≠ pickupColumn ∧ p.1 ≠ dropoffColumn) → q = p) ∧
      ((p.1 = pickupColumn ∨ p.1 = dropoffColumn) →
        toDatetime p.2 = some q.2 ∧ q.2.isTimestamp = true) := by
  unfold normalizeField at h
  by_cases hc : p.1 = pickupColumn ∨ p.1 = dropoffColumn
  · rw [if_pos hc] at h
    cases hd : toDatetime p.2 with
    | none =>
      rw [hd] at h
      cases h
    | some v =>
      rw [hd] at h
      cases h
      refine ⟨rfl, fun hne => absurd hc (by tauto),
        fun _ => ⟨by simpa using hd, by simpa using toDatetime_isTimestamp hd⟩⟩
  · rw [if_neg hc] at h
    cases h
    exact ⟨rfl, fun _ => rfl, fun hy => absurd hy hc⟩

theorem applyOps_replace_head (tname : String) (p : Option Table)
    (c : List String) (tr : List DbAction) :
    applyOps tname p (DbAction.replaceOp tname c :: tr) =
      applyOps tname (some ⟨c, []⟩) tr := by
  simp [applyOps, applyAction]

theorem normalizeRecord_wRec : normalizeRecord wRec = some wRecN := by
  decide

theorem normalizeBatch_replicate (m : Nat) :
    normalizeBatch (List.replicate m wRec) = some (List.replicate m wRecN) := by
  induction m with
  | zero => rfl
  | succ m ih =>
    rw [List.replicate_succ, List.replicate_succ]
    rw [normalizeBatch] at ih ⊢
    simp only [mapOption, normalizeRecord_wRec, ih]

theorem mapOption_nil (f : α → Option β) : mapOption f [] = some [] :=
  rfl

theorem mapOption_cons_some {f : α → Option β} {a : α} {b : β} {as : List α}
    {bs : List β} (ha : f a = some b) (has : mapOption f as = some bs) :
    mapOption f (a :: as) = some (b :: bs) := by
  rw [mapOption, ha, has]

theorem runMain_cons_some {tname : String} {b0 nb0 : Batch} {rest : List Batch}
    (h0 : normalizeBatch b0 = some nb0) :
    runMain tname (b0 :: rest) =
      (DbAction.replaceOp tname (batchCols nb0) ::
        DbAction.appendOp tname nb0 :: (ingestLoop tname 1 rest).1,
        (ingestLoop tname 1 rest).2) := by
  rw [runMain, h0]

theorem runMain_fst_cons_some {tname : String} {b0 nb0 : Batch}
    {rest : List Batch} (h0 : normalizeBatch b0 = some nb0) :
    (runMain tname (b0 :: rest)).1 =
      DbAction.replaceOp tname (batchCols nb0) ::
        DbAction.appendOp tname nb0 :: (ingestLoop tname 1 rest).1 := by
  rw [runMain_cons_some h0]

theorem ingestLoop_success_fst {tname : String} {rest nrs : List Batch}
    (h : mapOption normalizeBatch rest = some nrs) (k : Nat) :
    (ingestLoop tname k rest).1 = loopTrace tname nrs := by
  rw [ingestLoop_success h k]

/-- Claim C2: for every batch size B at least 1 and every source of at least
one record, the reader yields ceil(N/B) batches (written (N + B - 1) / B),
their concatenation is the source itself (so the batch sizes sum to N and
the records keep their original order across the batches), every batch
except possibly the last has exactly B records, and the last batch has
between 1 and B records.  The script fixes B = 10000 (batch_size). -/
theorem reader_yields_ceil_batches (B : Nat) (l : List Record)
    (hB : 1 ≤ B) (hl : l ≠ []) :
    (chunks B l).length = (l.length + B - 1) / B ∧
      (chunks B l).flatten = l ∧
      ((chunks B l).map List.length).sum = l.length ∧
      (∀ c ∈ (chunks B l).dropLast, c.length = B) ∧
      1 ≤ ((chunks B l).getLast?.getD []).length ∧
      ((chunks B l).getLast?.getD []).length ≤ B := by
  have hB0 : B ≠ 0 := by omega
  refine ⟨chunks_length hB0 l, chunks_flatten hB0 l, ?_, chunks_sizes hB0 l,
    (chunks_getLast hB0 hl).1, (chunks_getLast hB0 hl).2⟩
  rw [← List.length_flatten, chunks_flatten hB0 l]

/-- Witness for claim C2: the chunking of a five-record source with batch
size two, evaluated concretely. -/
theorem reader_yields_ceil_batches_witness :
    (chunks 2 wSource).length = (wSource.length + 2 - 1) / 2 ∧
      (chunks 2 wSource).flatten = wSource ∧
      ((chunks 2 wSource).map List.length).sum = wSource.length ∧
      (∀ c ∈ (chunks 2 wSource).dropLast, c.length = 2) ∧
      1 ≤ ((chunks 2 wSource).getLast?.getD []).length ∧
      ((chunks 2 wSource).getLast?.getD []).length ≤ 2 :=
  reader_yields_ceil_batches 2 wSource (by decide) (by decide)

/-- Claim C4: a source yielding zero batches makes the run fail at the very
first pull (the StopIteration of line 31, the EmptySourceError of the spec)
with an empty action trace: no drop, no create and no append is ever issued,
so no destination table is created and a prior table state is untouched. -/
theorem empty_source_no_table (tname : String) (prior : Option Table) :
    runMain tname [] = ([], RunExit.emptySource) ∧
      runScript tname (FileContent.gzipped []) =
        ([], ScriptExit.run RunExit.emptySource) ∧
      runTable tname [] prior = prior := by
  refine ⟨rfl, ?_, rfl⟩
  simp [runScript, readCsv, chunks_nil, runMain]

/-- Claim C7 counterexample: of the four configuration parameters the claim
says are supplied by the caller, only table_name is a recognized command
line argument of the script; batch_size, pickup_column and dropoff_column
are not recognized (the script hardcodes them). -/
theorem config_params_counterexample :
    ("table_name" ∈ cliArgs) ∧ ("batch_size" ∉ cliArgs) ∧
      ("pickup_column" ∉ cliArgs) ∧ ("dropoff_column" ∉ cliArgs) := by
  decide

/-- Claim C7 amended: the caller supplies exactly user, password, host,
port, db, table_name and url; of the four parameters of the claim only
table_name is caller supplied, while the batch size is fixed at 10000 in
the source and the two normalized columns are fixed as the taxi pickup and
dropoff datetime columns. -/
theorem config_params :
    cliArgs = ["user", "password", "host", "port", "db", "table_name", "url"] ∧
      batch_size = 10000 ∧
      pickupColumn = "tpep_pickup_datetime" ∧
      dropoffColumn = "tpep_dropoff_datetime" :=
  ⟨rfl, rfl, rfl, rfl⟩

/-- Claim C9: running ingestion twice in succession against the same source
and the same destination yields the same final table contents as running it
once, whatever the prior state of the table: a run either issues no database
call at all (empty source, or unparsable first batch) or begins by dropping
and recreating the table, so its final contents never depend on the prior
state. -/
theorem rerun_idempotent (tname : String) (batches : List Batch)
    (prior : Option Table) :
    runTable tname batches (runTable tname batches prior) =
      runTable tname batches prior := by
  cases batches with
  | nil => rfl
  | cons b0 rest =>
    cases hfb : normalizeBatch b0 with
    | none =>
      simp [runTable, runMain, hfb, applyOps]
    | some nb0 =>
      have htr : (runMain tname (b0 :: rest)).1 =
          DbAction.replaceOp tname (batchCols nb0) ::
            DbAction.appendOp tname nb0 :: (ingestLoop tname 1 rest).1 := by
        simp [runMain, hfb]
      simp only [runTable, htr, applyOps_replace_head]

/-- Claim C10: the local file name is chosen by whether the url ends in
.csv.gz, but the read of line 29 goes through gzip decompression
unconditionally, so a plain uncompressed CSV source fails at read time and
nothing is ingested, while a gzipped file is decoded and chunked. -/
theorem gzip_read_unconditional (url tname : String) (rows : List Record) :
    csvName url =
      (if url.endsWith gzSuffix then ("output.csv.gz") else ("output.csv")) ∧
      readCsv batch_size (FileContent.plain rows) = none ∧
      readCsv batch_size (FileContent.gzipped rows) =
        some (chunks batch_size rows) ∧
      runScript tname (FileContent.plain rows) = ([], ScriptExit.readError) :=
  ⟨rfl, rfl, rfl, rfl⟩

/-- Claim C1: in every run that writes any rows, the action trace begins
with exactly one replace (drop the table if present and recreate it empty
from the column schema of the normalized first batch) and no later replace
occurs: the bootstrap happens exactly once, strictly before any append, and
it uses the first batch after its normalization. -/
theorem bootstrap_once_before_appends (tname : String) (batches : List Batch)
    (h : ∃ a ∈ (runMain tname batches).1, DbAction.isAppend a = true) :
    ∃ b0 rest nb0 tr,
      batches = b0 :: rest ∧
      normalizeBatch b0 = some nb0 ∧
      (runMain tname batches).1 =
        DbAction.replaceOp tname (batchCols nb0) ::
          DbAction.appendOp tname nb0 :: tr ∧
      tr.countP DbAction.isReplace = 0 := by
  cases batches with
  | nil =>
    obtain ⟨a, ha, _⟩ := h
    simp [runMain] at ha
  | cons b0 rest =>
    cases hfb : normalizeBatch b0 with
    | none =>
      obtain ⟨a, ha, _⟩ := h
      simp [runMain, hfb] at ha
    | some nb0 =>
      refine ⟨b0, rest, nb0, (ingestLoop tname 1 rest).1, rfl, hfb, ?_,
        ingestLoop_no_replace tname 1 rest⟩
      simp [runMain, hfb]

/-- Witness for claim C1: a one-batch run evaluated concretely. -/
theorem bootstrap_once_before_appends_witness :
    (∃ a ∈ (runMain wTable [[wRec]]).1, DbAction.isAppend a = true) ∧
      ∃ b0 rest nb0 tr,
        ([[wRec]] : List Batch) = b0 :: rest ∧
        normalizeBatch b0 = some nb0 ∧
        (runMain wTable [[wRec]]).1 =
          DbAction.replaceOp wTable (batchCols nb0) ::
            DbAction.appendOp wTable nb0 :: tr ∧
        tr.countP DbAction.isReplace = 0 :=
  ⟨by decide, bootstrap_once_before_appends wTable [[wRec]] (by decide)⟩

/-- Claim C3: if normalization fails on the batch at index k, every earlier
batch normalizing, then the run aborts with the parse failure escaping while
batch k is processed (the NormalizationError of the spec referencing batch
k), and afterwards: for k = 0 not a single database call was issued, and for
k greater than 0 the destination table holds precisely the concatenation of
the first k normalized batches, whatever its prior state; batch k and all
later batches are absent, no batch is partially written, and no earlier
batch is rolled back. -/
theorem normalization_failure_prefix (tname : String) (pre : List Batch)
    (bk : Batch) (suf : List Batch) (npre : List Batch) (prior : Option Table)
    (hpre : mapOption normalizeBatch pre = some npre)
    (hb : normalizeBatch bk = none) :
    (runMain tname (pre ++ bk :: suf)).2 = RunExit.normFail pre.length ∧
      (pre = [] → (runMain tname (pre ++ bk :: suf)).1 = []) ∧
      (∀ nb0 nrest, npre = nb0 :: nrest →
        applyOps tname prior (runMain tname (pre ++ bk :: suf)).1 =
          some ⟨batchCols nb0, npre.flatten⟩) := by
  cases pre with
  | nil =>
    simp only [mapOption, Option.some.injEq] at hpre
    subst hpre
    refine ⟨?_, fun _ => ?_, ?_⟩
    · simp [runMain, hb]
    · simp [runMain, hb]
    · intro nb0 nrest hcontra
      cases hcontra
  | cons p ps =>
    simp only [mapOption] at hpre
    cases hfp : normalizeBatch p with
    | none =>
      rw [hfp] at hpre
      cases hpre
    | some np =>
      rw [hfp] at hpre
      cases hm : mapOption normalizeBatch ps with
      | none =>
        rw [hm] at hpre
        cases hpre
      | some nps =>
        rw [hm] at hpre
        injection hpre with h2
        subst h2
        have hloop := ingestLoop_failure tname ps suf 1 hm hb
        have htr : runMain tname ((p :: ps) ++ bk :: suf) =
            (DbAction.replaceOp tname (batchCols np) ::
              DbAction.appendOp tname np :: loopTrace tname nps,
              RunExit.normFail (1 + ps.length)) := by
          simp [runMain, hfp, List.cons_append, hloop]
        refine ⟨?_, ?_, ?_⟩
        · rw [htr]
          simp only [List.length_cons]
          congr 1
          omega
        · intro hcontra
          exact absurd hcontra (List.cons_ne_nil p ps)
        · intro nb0 nrest heq
          injection heq with e1 e2
          subst e1
          subst e2
          rw [htr]
          rw [applyOps_replace_head]
          simp only [applyOps, applyAction, eq_self_iff_true, ite_true, if_true,
            List.nil_append]
          rw [applyOps_loopTrace]
          simp [List.flatten_cons]

/-- Witness for claim C3: a run whose second batch holds an unparsable
timestamp, evaluated concretely. -/
theorem normalization_failure_prefix_witness :
    (mapOption normalizeBatch [[wRec]] = some [[wRecN]]) ∧
      normalizeBatch [wRecBad] = none ∧
      ((runMain wTable ([[wRec]] ++ [wRecBad] :: [])).2 =
          RunExit.normFail ([[wRec]] : List Batch).length ∧
        (([[wRec]] : List Batch) = [] →
          (runMain wTable ([[wRec]] ++ [wRecBad] :: [])).1 = []) ∧
        (∀ nb0 nrest, ([[wRecN]] : List Batch) = nb0 :: nrest →
          applyOps wTable none (runMain wTable ([[wRec]] ++ [wRecBad] :: [])).1 =
            some ⟨batchCols nb0, ([[wRecN]] : List Batch).flatten⟩)) :=
  ⟨by decide, by decide,
    normalization_failure_prefix wTable [[wRec]] [wRecBad] [] [[wRecN]] none
      (by decide) (by decide)⟩

/-- Claim C5 counterexample: for the 25000-record source with batch size
10000 all three batches load, yet only two timing messages are printed, not
three: the first batch load at line 38 is followed by no print, the message
of line 55 being emitted only inside the while loop. -/
theorem events_scenario_counterexample :
    ((runMain wTable (chunks batch_size bigSource)).1).countP DbAction.isPrint
        = 2 ∧
      ((runMain wTable (chunks batch_size bigSource)).1).countP DbAction.isPrint
        ≠ 3 := by
  have hrep : ∀ (n : Nat) (a : Record), n ≠ 0 → List.replicate n a ≠ [] := by
    intro n a hn h
    have hl := congrArg List.length h
    rw [List.length_replicate, List.length_nil] at hl
    exact hn hl
  have hch : chunks batch_size bigSource =
      [List.replicate 10000 wRec, List.replicate 10000 wRec,
        List.replicate 5000 wRec] := by
    have h1 : (25000 : Nat) - 10000 = 15000 := by norm_num
    have h2 : (15000 : Nat) - 10000 = 5000 := by norm_num
    have h3 : (5000 : Nat) - 10000 = 0 := by norm_num
    have m1 : min 10000 25000 = 10000 := by omega
    have m2 : min 10000 15000 = 10000 := by omega
    have m3 : min 10000 5000 = 5000 := by omega
    rw [bigSource, batch_size]
    rw [chunks_cons (by omega) (hrep 25000 wRec (by omega)),
      List.take_replicate, List.drop_replicate, m1, h1]
    rw [chunks_cons (by omega) (hrep 15000 wRec (by omega)),
      List.take_replicate, List.drop_replicate, m2, h2]
    rw [chunks_cons (by omega) (hrep 5000 wRec (by omega)),
      List.take_replicate, List.drop_replicate, m3, h3]
    rw [List.replicate_zero, chunks_nil]
  rw [hch]
  have hmr : mapOption normalizeBatch
      [List.replicate 10000 wRec, List.replicate 5000 wRec] =
      some [List.replicate 10000 wRecN, List.replicate 5000 wRecN] :=
    mapOption_cons_some (normalizeBatch_replicate 10000)
      (mapOption_cons_some (normalizeBatch_replicate 5000)
        (mapOption_nil normalizeBatch))
  rw [runMain_fst_cons_some (normalizeBatch_replicate 10000),
    ingestLoop_success_fst hmr 1]
  constructor
  · rw [List.countP_cons, List.countP_cons, loopTrace_countP_print]
    rfl
  · rw [List.countP_cons, List.countP_cons, loopTrace_countP_print]
    decide

/-- Claim C5 amended: the script emits its timing message only inside the
while loop, so exactly one message follows every batch load except the
first, and the message carries only the elapsed seconds of the append
(neither batch index nor row count); for a source whose batches all
normalize the trace is the bootstrap, the first append, and then one append
followed by one print per remaining batch, so the number of printed events
is the number of batches minus one (two events, not three, in the
25000-record scenario). -/
theorem events_only_after_loop_batches (tname : String) (b0 nb0 : Batch)
    (rest nrest : List Batch)
    (h0 : normalizeBatch b0 = some nb0)
    (hrest : mapOption normalizeBatch rest = some nrest) :
    (runMain tname (b0 :: rest)).1 =
      DbAction.replaceOp tname (batchCols nb0) ::
        DbAction.appendOp tname nb0 :: loopTrace tname nrest ∧
      ((runMain tname (b0 :: rest)).1).countP DbAction.isPrint = rest.length := by
  have htr : (runMain tname (b0 :: rest)).1 =
      DbAction.replaceOp tname (batchCols nb0) ::
        DbAction.appendOp tname nb0 :: loopTrace tname nrest := by
    simp [runMain, h0, ingestLoop_success hrest 1]
  refine ⟨htr, ?_⟩
  rw [htr]
  simp only [List.countP_cons, DbAction.isPrint, loopTrace_countP_print]
  simp [(mapOption_eq_some.mp hrest).length_eq]

/-- Witness for the amended claim C5: a two-batch run evaluated
concretely. -/
theorem events_only_after_loop_batches_witness :
    normalizeBatch [wRec] = some [wRecN] ∧
      mapOption normalizeBatch [[wRec]] = some [[wRecN]] ∧
      ((runMain wTable [[wRec], [wRec]]).1 =
        DbAction.replaceOp wTable (batchCols [wRecN]) ::
          DbAction.appendOp wTable [wRecN] :: loopTrace wTable [[wRecN]] ∧
        ((runMain wTable [[wRec], [wRec]]).1).countP DbAction.isPrint =
          ([[wRec]] : List Batch).length) :=
  ⟨by decide, by decide,
    events_only_after_loop_batches wTable [wRec] [wRecN] [[wRec]] [[wRecN]]
      (by decide) (by decide)⟩

/-- Claim C6 counterexample: on a one-batch source every batch is loaded and
the run ends with the StopIteration of line 46 escaping main, not with a
normal completion: the while loop of the script has no end-of-stream
handler, so a normal DONE completion is never reached. -/
theorem loop_end_counterexample :
    (runMain wTable [[wRec]]).2 = RunExit.stopIteration ∧
      (runMain wTable [[wRec]]).2 ≠ RunExit.done := by
  decide

/-- Claim C6 amended: for every source with at least one batch whose batches
all normalize, the run terminates after loading every batch of the source:
the pull after the last batch raises StopIteration, which escapes main as an
exception (a normal DONE completion never happens), and the destination
table then holds the concatenation of all normalized batches, whatever its
prior state. -/
theorem loop_terminates_all_loaded (tname : String) (b0 nb0 : Batch)
    (rest nrest : List Batch) (prior : Option Table)
    (h0 : normalizeBatch b0 = some nb0)
    (hrest : mapOption normalizeBatch rest = some nrest) :
    (runMain tname (b0 :: rest)).2 = RunExit.stopIteration ∧
      (runMain tname (b0 :: rest)).2 ≠ RunExit.done ∧
      applyOps tname prior (runMain tname (b0 :: rest)).1 =
        some ⟨batchCols nb0, nb0 ++ nrest.flatten⟩ := by
  have hrun : runMain tname (b0 :: rest) =
      (DbAction.replaceOp tname (batchCols nb0) ::
        DbAction.appendOp tname nb0 :: loopTrace tname nrest,
        RunExit.stopIteration) := by
    simp [runMain, h0, ingestLoop_success hrest 1]
  rw [hrun]
  refine ⟨rfl, ?_, ?_⟩
  · intro hcontra
    cases hcontra
  rw [applyOps_replace_head]
  simp only [applyOps, applyAction, eq_self_iff_true, ite_true, if_true,
    List.nil_append]
  exact applyOps_loopTrace tname (batchCols nb0) nb0 nrest

/-- Witness for the amended claim C6: a one-batch run evaluated
concretely. -/
theorem loop_terminates_all_loaded_witness :
    normalizeBatch [wRec] = some [wRecN] ∧
      mapOption normalizeBatch [] = some [] ∧
      ((runMain wTable [[wRec]]).2 = RunExit.stopIteration ∧
        (runMain wTable [[wRec]]).2 ≠ RunExit.done ∧
        applyOps wTable none (runMain wTable [[wRec]]).1 =
          some ⟨batchCols [wRecN], [wRecN] ++ ([] : List Batch).flatten⟩) :=
  ⟨by decide, by decide,
    loop_terminates_all_loaded wTable [wRec] [wRecN] [] [] none
      (by decide) (by decide)⟩

/-- Claim C8: normalization of a batch changes only the two designated
timestamp columns, parsing them into the canonical timestamp type; every
other field value, the column names and their order, and the order and
number of the records are unchanged.  normalizeBatch is a pure function of
the input batch alone, so the result has no dependency on prior batches. -/
theorem normalize_frame (b nb : Batch) (h : normalizeBatch b = some nb) :
    nb.length = b.length ∧
      List.Forall₂ (fun r nr =>
        nr.length = r.length ∧
        List.Forall₂ (fun p q =>
          q.1 = p.1 ∧
          ((p.1 ≠ pickupColumn ∧ p.1 ≠ dropoffColumn) → q = p) ∧
          ((p.1 = pickupColumn ∨ p.1 = dropoffColumn) →
            toDatetime p.2 = some q.2 ∧ q.2.isTimestamp = true)) r nr) b nb := by
  have hb := mapOption_eq_some.mp h
  refine ⟨hb.length_eq.symm, ?_⟩
  refine List.Forall₂.imp ?_ hb
  intro r nr hr
  have hfr := mapOption_eq_some.mp hr
  exact ⟨hfr.length_eq.symm,
    List.Forall₂.imp (fun p q hq => normalizeField_spec hq) hfr⟩

/-- Witness for claim C8: normalization of a one-record batch with a pickup,
a passenger count and a dropoff field, evaluated concretely. -/
theorem normalize_frame_witness :
    normalizeBatch [wRec] = some [wRecN] ∧
      (([wRecN] : Batch).length = ([wRec] : Batch).length ∧
        List.Forall₂ (fun r nr =>
          nr.length = r.length ∧
          List.Forall₂ (fun p q =>
            q.1 = p.1 ∧
            ((p.1 ≠ pickupColumn ∧ p.1 ≠ dropoffColumn) → q = p) ∧
            ((p.1 = pickupColumn ∨ p.1 = dropoffColumn) →
              toDatetime p.2 = some q.2 ∧ q.2.isTimestamp = true)) r nr)
          [wRec] [wRecN]) :=
  ⟨by decide, normalize_frame [wRec] [wRecN] (by decide)⟩
